import Mathlib

/-!
Verification of the interactive fuzzy-search core of the gg repository.

Shallow embedding conventions:

* Rust String values are modelled as List Char.
* f64 scores are modelled as rationals; the arithmetic involved (division by
  positive day counts, multiplication by 10, min with 30, addition) is exact.
* chrono timestamps are modelled at day granularity as integers, so
  num_days of the difference of two timestamps is integer subtraction; the
  source clamps it with max(0).
* The fuzzy matching algorithm itself lives in the external nucleo crate
  and is not part of the repository sources; it is modelled from the spec
  where needed, marked by doc comments beginning with Modelled from the spec.
* The stable sort performed by Rust sort_by is modelled by a structural
  stable insertion sort, which computes the same list as any stable sort
  for the same comparator.
-/

/-- Convert a string literal to the List Char representation used throughout. -/
def strL (s : String) : List Char := s.data

/-- Lower-casing of a key or pattern, character by character. -/
def lowerStr (s : List Char) : List Char := s.map Char.toLower

/-- Modelled from the spec: the matching algorithm is implemented by the
external nucleo crate (absent from the sources). The spec defines matching as
case-insensitive subsequence fuzzy matching: an item matches if every
character of the pattern appears in the display key in the same relative
order. -/
def fuzzyMatches (pat key : List Char) : Bool :=
  (lowerStr pat).isSublist (lowerStr key)

/-- Embedding of domain::repo::Org (src/domain/repo.rs). -/
structure Org where
  id : ℤ
  login : List Char
  name : Option (List Char)
  avatar_url : Option (List Char)
  last_accessed_at : Option ℤ
  access_count : ℕ
deriving DecidableEq, Repr

/-- Embedding of domain::repo::Repo (src/domain/repo.rs). The source field
named private (a Lean keyword) is rendered is_private. -/
structure Repo where
  id : ℤ
  name : List Char
  full_name : List Char
  owner_id : ℤ
  owner_login : List Char
  is_private : Bool
  description : Option (List Char)
  language : Option (List Char)
  default_branch : Option (List Char)
  last_accessed_at : Option ℤ
  access_count : ℕ
deriving DecidableEq, Repr

/-- Embedding of Repo::score (src/domain/repo.rs lines 81-87): days since
last access, clamped at zero, 30 when never accessed; the score is
access_count divided by days plus one. -/
def Repo.score (r : Repo) (now : ℤ) : ℚ :=
  let days : ℚ :=
    match r.last_accessed_at with
    | some last => ((max (now - last) 0 : ℤ) : ℚ)
    | none => 30
  (r.access_count : ℚ) / (days + 1)

/-- Embedding of tui::matcher::RepoItem (src/tui/matcher.rs). -/
structure RepoItem where
  full_name : List Char
  repo : Repo
  url : List Char
deriving DecidableEq, Repr

/-- Embedding of RepoItem::new: the url is the github base followed by the
full name. -/
def RepoItem.new (r : Repo) : RepoItem :=
  { full_name := r.full_name
    repo := r
    url := strL "https://github.com/" ++ r.full_name }

/-- Embedding of the pseudo repo built for an org inside RepoMatcher::new
(src/tui/matcher.rs lines 73-88). -/
def Org.toPseudoRepo (o : Org) : Repo :=
  { id := o.id
    name := []
    full_name := o.login ++ strL "/"
    owner_id := o.id
    owner_login := o.login
    is_private := false
    description := none
    language := none
    default_branch := none
    last_accessed_at := o.last_accessed_at
    access_count := o.access_count }

/-- Embedding of tui::matcher::RepoMatcher. The nucleo worker state is
modelled by the injected names together with the current pattern: after
recomputation has converged, the matched set is a function of these alone. -/
structure RepoMatcher where
  pattern : List Char
  allNames : List (List Char)
  items : List RepoItem
deriving DecidableEq, Repr

/-- Embedding of RepoMatcher::new (src/tui/matcher.rs lines 41-92): repo full
names followed by org names with a trailing slash are injected into nucleo,
and the parallel items list is built in the same order. -/
def RepoMatcher.new (repos : List Repo) (orgs : List Org) : RepoMatcher :=
  { pattern := []
    allNames := repos.map (fun r => r.full_name)
      ++ orgs.map (fun o => o.login ++ strL "/")
    items := repos.map RepoItem.new
      ++ orgs.map (fun o => RepoItem.new o.toPseudoRepo) }

/-- Embedding of RepoMatcher::update_pattern (src/tui/matcher.rs lines
102-111): stores the pattern and reparses the nucleo pattern. -/
def RepoMatcher.update_pattern (m : RepoMatcher) (p : List Char) : RepoMatcher :=
  { m with pattern := p }

/-- The names of the injected entries matched by the current pattern, in
injection order, once recomputation (tick) has converged. Membership is
decided by the spec-modelled fuzzyMatches. -/
def RepoMatcher.matchedNames (m : RepoMatcher) : List (List Char) :=
  m.allNames.filter (fun n => fuzzyMatches m.pattern n)

/-- Embedding of RepoMatcher::match_count (src/tui/matcher.rs lines 146-149):
the matched item count of the nucleo snapshot. -/
def RepoMatcher.match_count (m : RepoMatcher) : ℕ :=
  m.matchedNames.length

/-- Embedding of the usage bonus computed inside RepoMatcher::combined_score
(src/tui/matcher.rs lines 152-160): the usage score scaled by 10 and capped
at 30. -/
def usage_bonus (item : RepoItem) (now : ℤ) : ℚ :=
  min (item.repo.score now * 10) 30

/-- Embedding of RepoMatcher::combined_score (src/tui/matcher.rs lines
152-160): the fuzzy score plus the usage bonus. -/
def combined_score (item : RepoItem) (fuzzy_score : ℚ) (now : ℤ) : ℚ :=
  fuzzy_score + usage_bonus item now

/-- Embedding of the first stage of RepoMatcher::matches_sorted (src/tui/
matcher.rs lines 119-133): every matched name of the snapshot is looked up
in the items list by full name (first hit wins) and paired with the constant
placeholder fuzzy score 100.0 that the source assigns to every match. -/
def RepoMatcher.matchesWithScores (m : RepoMatcher) : List (RepoItem × ℚ) :=
  m.matchedNames.filterMap
    (fun n => (m.items.find? (fun ri => ri.full_name == n)).map
      (fun ri => (ri, (100 : ℚ))))

/-- Stable insertion step for the descending sort: x was earlier in the
unsorted input than everything in the already sorted list, so it is placed
before the first element whose key is not greater. -/
def insD (key : α → ℚ) (x : α) : List α → List α
  | [] => [x]
  | y :: ys => if key y ≤ key x then x :: y :: ys else y :: insD key x ys

/-- Stable sort by descending key, modelling the stable sort_by of the
source (the comparator compares score_b to score_a, so higher scores come
first and equal scores keep their previous order). -/
def sortD (key : α → ℚ) : List α → List α
  | [] => []
  | x :: xs => insD key x (sortD key xs)

/-- Embedding of RepoMatcher::matches_sorted (src/tui/matcher.rs lines
119-143): the looked-up matches are stably sorted by descending combined
score and the scores are dropped. -/
def RepoMatcher.matches_sorted (m : RepoMatcher) (now : ℤ) : List RepoItem :=
  (sortD (fun pr => combined_score pr.1 pr.2 now) m.matchesWithScores).map Prod.fst

/-- Embedding of tui::app::App (src/tui/app.rs): session state of the
interactive search. -/
structure App where
  matcher : RepoMatcher
  selected_index : ℕ
  input_pattern : List Char
  should_exit : Bool
  total_orgs : ℕ
  total_repos : ℕ
deriving DecidableEq, Repr

/-- Embedding of App::new (src/tui/app.rs lines 31-45). -/
def App.new (repos : List Repo) (orgs : List Org) : App :=
  { matcher := RepoMatcher.new repos orgs
    selected_index := 0
    input_pattern := []
    should_exit := false
    total_orgs := orgs.length
    total_repos := repos.length }

/-- Embedding of App::matches (src/tui/app.rs lines 48-50). -/
def App.matches (a : App) (now : ℤ) : List RepoItem :=
  a.matcher.matches_sorted now

/-- Embedding of App::match_count (src/tui/app.rs lines 53-55). -/
def App.match_count (a : App) : ℕ :=
  a.matcher.match_count

/-- Embedding of App::selected_item (src/tui/app.rs lines 58-62). -/
def App.selected_item (a : App) (now : ℤ) : Option RepoItem :=
  (a.matches now)[a.selected_index]?

/-- Embedding of App::on_char (src/tui/app.rs lines 65-69): push the
character, push the new pattern to the matcher, reset the selection. -/
def App.on_char (a : App) (c : Char) : App :=
  { a with input_pattern := a.input_pattern ++ [c]
           matcher := a.matcher.update_pattern (a.input_pattern ++ [c])
           selected_index := 0 }

/-- Embedding of App::on_backspace (src/tui/app.rs lines 72-76): pop the
last character (no-op on the empty pattern), push the new pattern, reset
the selection. -/
def App.on_backspace (a : App) : App :=
  { a with input_pattern := a.input_pattern.dropLast
           matcher := a.matcher.update_pattern a.input_pattern.dropLast
           selected_index := 0 }

/-- Embedding of App::on_up (src/tui/app.rs lines 79-84). -/
def App.on_up (a : App) : App :=
  if a.match_count > 0 ∧ a.selected_index > 0 then
    { a with selected_index := a.selected_index - 1 }
  else a

/-- Embedding of App::on_down (src/tui/app.rs lines 87-92). -/
def App.on_down (a : App) : App :=
  if a.match_count > 0 then
    { a with selected_index := min (a.selected_index + 1) (a.match_count - 1) }
  else a

/-- Embedding of App::on_enter (src/tui/app.rs lines 95-97): the source
takes a mutable borrow but writes nothing, so the embedding returns the
produced url together with the unchanged state. -/
def App.on_enter (a : App) (now : ℤ) : Option (List Char) × App :=
  ((a.selected_item now).map (fun it => it.url), a)

/-- Embedding of App::on_ctrl_key (src/tui/app.rs lines 170-185): with no
selected item nothing is returned; otherwise the four view letters append
their suffix to the url of the selected item. Like on_enter, the source
mutates nothing. -/
def App.on_ctrl_key (a : App) (now : ℤ) (c : Char) : Option (List Char) :=
  match a.selected_item now with
  | none => none
  | some item =>
    if c = 'a' then some (item.url ++ strL "/actions")
    else if c = 'i' then some (item.url ++ strL "/issues")
    else if c = 'p' then some (item.url ++ strL "/pulls")
    else if c = 'm' then some (item.url ++ strL "/milestones")
    else none

/-- The move and edit events of the session state machine that drive the
selection clamp invariant. -/
inductive AppEvent where
  | up : AppEvent
  | down : AppEvent
  | charInput : Char → AppEvent
  | deleteBack : AppEvent
deriving DecidableEq, Repr

/-- Dispatch of one event to the corresponding App handler. -/
def App.step (a : App) : AppEvent → App
  | .up => a.on_up
  | .down => a.on_down
  | .charInput c => a.on_char c
  | .deleteBack => a.on_backspace

/-- A whole event sequence applied from a given state. -/
def App.run (a : App) (evs : List AppEvent) : App :=
  evs.foldl App.step a

/-- Modelled from the spec: the SessionState record of section 3 of the
spec, carrying the help flag. The sources under src lack the help toggle:
ui.rs reads a show_help accessor that app.rs never defines, so the
toggle-help transition is taken from the spec transition table. -/
structure SessionState where
  pattern : List Char
  selected_index : ℕ
  help_visible : Bool
  exit_requested : Bool
deriving DecidableEq, Repr

/-- Modelled from the spec: the toggle-help transition flips help_visible
and touches nothing else. -/
def SessionState.onToggleHelp (s : SessionState) : SessionState :=
  { s with help_visible := !s.help_visible }

/-! ### Specification-side definitions for the ordering key

These follow the wording of section 4.2 of the spec and are compared with
the source-derived combined_score in the refinement claim below. -/

/-- Spec wording: days_since(last_used, now), with absent last_used treated
as 30 elapsed days; elapsed days are non-negative by definition. -/
def days_since_spec (last_used : Option ℤ) (now : ℤ) : ℚ :=
  match last_used with
  | some t => ((max (now - t) 0 : ℤ) : ℚ)
  | none => 30

/-- Spec wording: usage_score = usage_count / (days_since(last_used, now) + 1). -/
def usage_score_spec (usage_count : ℕ) (last_used : Option ℤ) (now : ℤ) : ℚ :=
  (usage_count : ℚ) / (days_since_spec last_used now + 1)

/-- Spec wording: order_key = raw_score + usage_bonus, where
usage_bonus = min(usage_score * 10, 30). -/
def order_key_spec (raw_score : ℚ) (usage_count : ℕ) (last_used : Option ℤ)
    (now : ℤ) : ℚ :=
  raw_score + min (usage_score_spec usage_count last_used now * 10) 30

/-! ### Concrete fixtures used by witnesses and counterexamples -/

/-- A plain repository that was never accessed. -/
def sampleRepo : Repo :=
  { id := 1
    name := strL "x"
    full_name := strL "a/x"
    owner_id := 1
    owner_login := strL "a"
    is_private := false
    description := none
    language := none
    default_branch := none
    last_accessed_at := none
    access_count := 0 }

/-- A repository whose full name collides with the org entry below: the
repository is named a/ exactly like the display key of the org. -/
def dupRepo : Repo :=
  { sampleRepo with id := 7, name := [], full_name := strL "a/" }

/-- An org whose display key a/ collides with dupRepo. -/
def dupOrg : Org :=
  { id := 8
    login := strL "a"
    name := none
    avatar_url := none
    last_accessed_at := none
    access_count := 0 }

/-- A repository matching the pattern react as one contiguous run. -/
def contigRepo : Repo :=
  { sampleRepo with
    id := 11
    name := strL "react"
    full_name := strL "facebook/react"
    owner_login := strL "facebook" }

/-- A repository matching the pattern react only as a sparse subsequence. -/
def sparseRepo : Repo :=
  { sampleRepo with
    id := 12
    name := strL "e2a3c4t5"
    full_name := strL "r1/e2a3c4t5"
    owner_login := strL "r1" }

/-! ### Helper lemmas -/

/-- The usage score of the source is never negative. -/
theorem Repo.score_nonneg (r : Repo) (now : ℤ) : 0 ≤ r.score now := by
  unfold Repo.score
  have hd : (0 : ℚ) ≤ (match r.last_accessed_at with
      | some last => ((max (now - last) 0 : ℤ) : ℚ)
      | none => 30) := by
    cases r.last_accessed_at with
    | none => norm_num
    | some last =>
      show (0 : ℚ) ≤ ((max (now - last) 0 : ℤ) : ℚ)
      exact_mod_cast le_max_right (now - last) 0
  exact div_nonneg (Nat.cast_nonneg _) (by linarith)

/-- Every element produced by the lookup stage carries the placeholder
score 100. -/
theorem mem_matchesWithScores_snd {m : RepoMatcher} {pr : RepoItem × ℚ}
    (h : pr ∈ m.matchesWithScores) : pr.2 = 100 := by
  unfold RepoMatcher.matchesWithScores at h
  rcases List.mem_filterMap.mp h with ⟨n, _, hf⟩
  rcases Option.map_eq_some'.mp hf with ⟨ri, _, hpr⟩
  simp [← hpr]

/-- Membership is preserved by the stable insertion step. -/
theorem mem_insD {key : α → ℚ} {x a : α} :
    ∀ {l : List α}, a ∈ insD key x l ↔ a = x ∨ a ∈ l := by
  intro l
  induction l with
  | nil => simp [insD]
  | cons y ys ih =>
    by_cases h : key y ≤ key x
    · simp [insD, h]
    · simp [insD, h, ih]
      tauto

/-- Membership is preserved by the stable descending sort. -/
theorem mem_sortD {key : α → ℚ} {a : α} :
    ∀ {l : List α}, a ∈ sortD key l ↔ a ∈ l := by
  intro l
  induction l with
  | nil => simp [sortD]
  | cons x xs ih => simp [sortD, mem_insD, ih]

/-! ### Claim C1 -/

/-- Claim C1: for every item, the final ordering key equals
raw_score + min(usage_score * 10, 30), where the usage score divides the
usage count by the days since last use plus one and a never-used item is
scored as if last used 30 days ago. The source-derived combined_score
coincides with the order key spelt out by the spec. -/
theorem order_key_formula (item : RepoItem) (raw_score : ℚ) (now : ℤ) :
    combined_score item raw_score now
      = order_key_spec raw_score item.repo.access_count
          item.repo.last_accessed_at now := by
  unfold combined_score order_key_spec usage_bonus usage_score_spec
    Repo.score days_since_spec
  cases item.repo.last_accessed_at <;> rfl

/-! ### Claim C9 -/

/-- Claim C9: for every item, whatever its usage count and optional last
use timestamp, the usage bonus lies in the closed interval from 0 to 30. -/
theorem usage_bonus_bounds (item : RepoItem) (now : ℤ) :
    0 ≤ usage_bonus item now ∧ usage_bonus item now ≤ 30 := by
  constructor
  · exact le_min (mul_nonneg (Repo.score_nonneg _ _) (by norm_num)) (by norm_num)
  · exact min_le_right _ _

/-! ### Claim C8 -/

/-- Claim C8: the toggle-help event flips the help_visible flag and leaves
every other component of the session state unchanged. The handler is
modelled from the spec because the toggle is absent from the sources. -/
theorem toggle_help_flips_only_help (s : SessionState) :
    s.onToggleHelp.help_visible = !s.help_visible
      ∧ s.onToggleHelp.pattern = s.pattern
      ∧ s.onToggleHelp.selected_index = s.selected_index
      ∧ s.onToggleHelp.exit_requested = s.exit_requested :=
  ⟨rfl, rfl, rfl, rfl⟩

/-! ### Claim C6 -/

/-- Claim C6: when the current match list is empty, the confirm event
returns no action and leaves the whole session state unchanged. -/
theorem enter_on_empty_matches_noop (a : App) (now : ℤ)
    (h : a.matches now = []) : a.on_enter now = (none, a) := by
  simp [App.on_enter, App.selected_item, h]

/-- Witness for claim C6 at the empty corpus. -/
theorem enter_on_empty_matches_noop_witness :
    (App.new [] []).on_enter 0 = (none, App.new [] []) :=
  enter_on_empty_matches_noop (App.new [] []) 0 rfl

/-! ### Claim C5 -/

/-- Claim C5 fails on the code: the raw fuzzy score attached to every
matched item is the constant 100, so an item matched by the pattern react
as one contiguous run and an item matched only as a sparse subsequence
receive identical raw scores instead of strictly ordered ones. -/
theorem raw_score_constant_100 :
    (((RepoMatcher.new [contigRepo, sparseRepo] []).update_pattern
        (strL "react")).matchesWithScores).map Prod.snd = [100, 100]
      ∧ fuzzyMatches (strL "react") contigRepo.full_name = true
      ∧ fuzzyMatches (strL "react") sparseRepo.full_name = true := by
  refine ⟨?_, by decide, by decide⟩
  decide

/-! ### Claim C7 -/

/-- Claim C7: with a selected item, the ctrl letters a, i, p and m return
the url of the selected item extended by the matching view suffix, any
other letter returns nothing; with no selected item nothing is returned. -/
theorem ctrl_key_view_suffixes (a : App) (now : ℤ) :
    (∀ item : RepoItem, a.selected_item now = some item →
      a.on_ctrl_key now 'a' = some (item.url ++ strL "/actions")
        ∧ a.on_ctrl_key now 'i' = some (item.url ++ strL "/issues")
        ∧ a.on_ctrl_key now 'p' = some (item.url ++ strL "/pulls")
        ∧ a.on_ctrl_key now 'm' = some (item.url ++ strL "/milestones")
        ∧ ∀ c : Char, c ≠ 'a' → c ≠ 'i' → c ≠ 'p' → c ≠ 'm' →
            a.on_ctrl_key now c = none)
      ∧ (a.selected_item now = none → ∀ c : Char, a.on_ctrl_key now c = none) := by
  constructor
  · intro item h
    refine ⟨?_, ?_, ?_, ?_, ?_⟩ <;>
      simp [App.on_ctrl_key, h]
    intro c ha hi hp hm
    simp [ha, hi, hp, hm]
  · intro h c
    simp [App.on_ctrl_key, h]

/-- Witness for claim C7: a one-repo corpus with the repo selected, the
letters i and z, and the empty corpus with no selection. -/
theorem ctrl_key_view_suffixes_witness :
    (App.new [sampleRepo] []).on_ctrl_key 0 'i'
        = some (strL "https://github.com/a/x/issues")
      ∧ (App.new [sampleRepo] []).on_ctrl_key 0 'z' = none
      ∧ (App.new [] []).on_ctrl_key 0 'q' = none := by
  have h := ctrl_key_view_suffixes (App.new [sampleRepo] []) 0
  have h0 := ctrl_key_view_suffixes (App.new [] []) 0
  refine ⟨?_, ?_, ?_⟩
  · exact ((h.1 (RepoItem.new sampleRepo) (by decide)).2.1).trans (by decide)
  · exact (h.1 (RepoItem.new sampleRepo) (by decide)).2.2.2.2
      'z' (by decide) (by decide) (by decide) (by decide)
  · exact h0.2 (by decide) 'q'

/-! ### Claim C2 -/

/-- Extending the pattern by one character only shrinks the matched set:
a key matched by the longer pattern is matched by the shorter one. -/
theorem fuzzyMatches_append_mono {p k : List Char} {c : Char}
    (h : fuzzyMatches (p ++ [c]) k = true) : fuzzyMatches p k = true := by
  unfold fuzzyMatches lowerStr at h ⊢
  rw [List.isSublist_iff_sublist] at h ⊢
  rw [List.map_append] at h
  exact List.Sublist.trans (List.sublist_append_left _ _) h

/-- Claim C2: typing a character and then deleting it with backspace gives
a match set containing every name matched before the deletion, for any
session state and any corpus. -/
theorem backspace_superset (a : App) (c : Char) (n : List Char)
    (h : n ∈ ((a.on_char c).matcher).matchedNames) :
    n ∈ (((a.on_char c).on_backspace).matcher).matchedNames := by
  obtain ⟨m, sel, ip, se, tor, trr⟩ := a
  simp only [App.on_char, App.on_backspace, RepoMatcher.update_pattern,
    RepoMatcher.matchedNames, List.mem_filter] at h ⊢
  refine ⟨h.1, ?_⟩
  have hd : (ip ++ [c]).dropLast = ip := by simp
  rw [hd]
  exact fuzzyMatches_append_mono h.2

/-- Witness for claim C2: typing x and backspacing over a one-repo corpus;
the repo a/x matched by x is still matched afterwards. -/
theorem backspace_superset_witness :
    strL "a/x" ∈ ((((App.new [sampleRepo] []).on_char 'x').on_backspace).matcher).matchedNames :=
  backspace_superset (App.new [sampleRepo] []) 'x' (strL "a/x") (by decide)

/-! ### Claim C3 -/

/-- The selection clamp invariant of the session state machine. -/
def AppInv (a : App) : Prop :=
  (0 < a.match_count → a.selected_index < a.match_count)
    ∧ (a.match_count = 0 → a.selected_index = 0)

/-- Every single move or edit event preserves the selection clamp. -/
theorem appInv_step {a : App} (h : AppInv a) (e : AppEvent) :
    AppInv (a.step e) := by
  obtain ⟨m, sel, ip, se, tor, trr⟩ := a
  obtain ⟨h1, h2⟩ := h
  simp only [AppInv, App.match_count] at h1 h2 ⊢
  cases e with
  | up =>
    simp only [App.step, App.on_up, App.match_count]
    split
    · next hc =>
      have := h1 hc.1
      refine ⟨fun hx => ?_, fun h0 => ?_⟩ <;> dsimp only at * <;> omega
    · exact ⟨h1, h2⟩
  | down =>
    simp only [App.step, App.on_down, App.match_count]
    split
    · next hc =>
      refine ⟨fun hx => ?_, fun h0 => ?_⟩ <;> dsimp only at * <;> omega
    · exact ⟨h1, h2⟩
  | charInput c =>
    exact ⟨fun hx => hx, fun _ => rfl⟩
  | deleteBack =>
    exact ⟨fun hx => hx, fun _ => rfl⟩

/-- The clamp holds in the initial state. -/
theorem appInv_new (repos : List Repo) (orgs : List Org) :
    AppInv (App.new repos orgs) :=
  ⟨fun h => h, fun _ => rfl⟩

/-- The clamp is preserved by any event sequence from any state satisfying it. -/
theorem appInv_run {a : App} (h : AppInv a) (evs : List AppEvent) :
    AppInv (a.run evs) := by
  induction evs generalizing a with
  | nil => exact h
  | cons e evs ih => exact ih (appInv_step h e)

/-- Claim C3: after any sequence of move-up, move-down, character-input and
delete-backward events from the initial session state, the selected index
is below the match count whenever matches exist, and is zero whenever no
match exists. -/
theorem selection_clamp_invariant (repos : List Repo) (orgs : List Org)
    (evs : List AppEvent) :
    (0 < ((App.new repos orgs).run evs).match_count →
        ((App.new repos orgs).run evs).selected_index
          < ((App.new repos orgs).run evs).match_count)
      ∧ (((App.new repos orgs).run evs).match_count = 0 →
        ((App.new repos orgs).run evs).selected_index = 0) :=
  appInv_run (appInv_new repos orgs) evs

/-- Witness for claim C3: a move-down over a one-repo corpus keeps the
selection in range, and a move-up over the empty corpus keeps it at zero. -/
theorem selection_clamp_invariant_witness :
    ((App.new [sampleRepo] []).run [AppEvent.down]).selected_index
        < ((App.new [sampleRepo] []).run [AppEvent.down]).match_count
      ∧ ((App.new [] []).run [AppEvent.up]).selected_index = 0 :=
  ⟨(selection_clamp_invariant [sampleRepo] [] [AppEvent.down]).1 (by decide),
   (selection_clamp_invariant [] [] [AppEvent.up]).2 (by decide)⟩

/-! ### Claim C10 -/

/-- Claim C10: every item returned by matches_sorted is the first item of
the corpus carrying its display key, because each matched snapshot entry is
re-associated by a forward find over the items list; a later duplicate is
therefore never returned and never selectable. -/
theorem duplicate_key_resolves_first (m : RepoMatcher) (now : ℤ)
    (x : RepoItem) (h : x ∈ m.matches_sorted now) :
    m.items.find? (fun ri => ri.full_name == x.full_name) = some x := by
  unfold RepoMatcher.matches_sorted at h
  rcases List.mem_map.mp h with ⟨pr, hsorted, hfst⟩
  have hpre : pr ∈ m.matchesWithScores := mem_sortD.mp hsorted
  unfold RepoMatcher.matchesWithScores at hpre
  rcases List.mem_filterMap.mp hpre with ⟨n, _, hf⟩
  rcases Option.map_eq_some'.mp hf with ⟨ri, hfind, hpr⟩
  have hx : ri = x := by rw [← hfst, ← hpr]
  subst hx
  have hname : ri.full_name = n := by
    have := List.find?_some hfind
    exact eq_of_beq this
  rw [hname]
  exact hfind

/-- Witness for claim C10: a corpus where the repository named a/ collides
with the org of login a; the matched occurrences all resolve to the
repository, the entry supplied first. -/
theorem duplicate_key_resolves_first_witness :
    RepoItem.new dupRepo ∈ (RepoMatcher.new [dupRepo] [dupOrg]).matches_sorted 0
      ∧ (RepoMatcher.new [dupRepo] [dupOrg]).items.find?
          (fun ri => ri.full_name == (RepoItem.new dupRepo).full_name)
        = some (RepoItem.new dupRepo) := by
  have hpre : (RepoMatcher.new [dupRepo] [dupOrg]).matchesWithScores
      = [(RepoItem.new dupRepo, 100), (RepoItem.new dupRepo, 100)] := by decide
  have hsort : (RepoMatcher.new [dupRepo] [dupOrg]).matches_sorted 0
      = [RepoItem.new dupRepo, RepoItem.new dupRepo] := by
    simp only [RepoMatcher.matches_sorted, hpre, sortD, insD]
    rw [if_pos le_rfl]
    rfl
  have hmem : RepoItem.new dupRepo
      ∈ (RepoMatcher.new [dupRepo] [dupOrg]).matches_sorted 0 := by
    rw [hsort]
    exact List.mem_cons_self _ _
  exact ⟨hmem, duplicate_key_resolves_first _ 0 _ hmem⟩

/-! ### Claim C4 -/

/-- Position of a display key inside the injected name sequence; under a
duplicate-free corpus this is the seed position of the item carrying it. -/
def namePos (l : List (List Char)) (n : List Char) : ℕ :=
  l.findIdx (fun m => m == n)

/-- Inserting an element related to everything in an already stably sorted
list preserves the stable descending order. -/
theorem insD_pairwise {key : α → ℚ} {R : α → α → Prop} {x : α} {s : List α}
    (hall : ∀ y ∈ s, R x y)
    (hs : s.Pairwise fun a b => key b < key a ∨ (key a = key b ∧ R a b)) :
    (insD key x s).Pairwise fun a b => key b < key a ∨ (key a = key b ∧ R a b) := by
  induction s with
  | nil => simp [insD]
  | cons y ys ih =>
    rw [List.pairwise_cons] at hs
    obtain ⟨hy, hys⟩ := hs
    by_cases hc : key y ≤ key x
    · simp only [insD, if_pos hc]
      refine List.Pairwise.cons ?_ (List.pairwise_cons.mpr ⟨hy, hys⟩)
      intro z hz
      rcases List.mem_cons.mp hz with rfl | hz2
      · by_cases hlt : key z < key x
        · exact Or.inl hlt
        · exact Or.inr ⟨le_antisymm (not_lt.mp hlt) hc,
            hall z (List.mem_cons_self _ _)⟩
      · rcases hy z hz2 with hlt | ⟨heq, _⟩
        · exact Or.inl (lt_of_lt_of_le hlt hc)
        · by_cases hltx : key z < key x
          · exact Or.inl hltx
          · exact Or.inr ⟨le_antisymm (not_lt.mp hltx) (heq ▸ hc),
              hall z (List.mem_cons_of_mem _ hz2)⟩
    · simp only [insD, if_neg hc]
      refine List.Pairwise.cons ?_
        (ih (fun w hw => hall w (List.mem_cons_of_mem _ hw)) hys)
      intro z hz
      rcases mem_insD.mp hz with rfl | hz2
      · exact Or.inl (not_le.mp hc)
      · exact hy z hz2

/-- The stable descending sort of a list whose elements are pairwise
related by R is pairwise ordered by: strictly larger key first, equal keys
still related by R in their original direction. -/
theorem sortD_pairwise_stable (key : α → ℚ) {R : α → α → Prop} {l : List α}
    (h : l.Pairwise R) :
    (sortD key l).Pairwise
      fun a b => key b < key a ∨ (key a = key b ∧ R a b) := by
  induction l with
  | nil => simp [sortD]
  | cons x xs ih =>
    rw [List.pairwise_cons] at h
    exact insD_pairwise (fun y hy => h.1 y (mem_sortD.mp hy)) (ih h.2)

/-- In a duplicate-free name list, earlier names have smaller positions. -/
theorem namePos_pairwise :
    ∀ {l : List (List Char)}, l.Nodup →
      l.Pairwise (fun a b => namePos l a < namePos l b) := by
  intro l
  induction l with
  | nil => simp
  | cons a t ih =>
    intro hnd
    rw [List.nodup_cons] at hnd
    obtain ⟨ha, ht⟩ := hnd
    refine List.Pairwise.cons ?_ ?_
    · intro b hb
      have hne : (a == b) = false := by
        rw [beq_eq_false_iff_ne]
        intro hab
        exact ha (hab ▸ hb)
      unfold namePos
      rw [List.findIdx_cons, List.findIdx_cons]
      simp [hne]
    · refine List.Pairwise.imp_of_mem ?_ (ih ht)
      intro x y hx hy hxy
      have hax : (a == x) = false := by
        rw [beq_eq_false_iff_ne]
        intro h
        exact ha (h ▸ hx)
      have hay : (a == y) = false := by
        rw [beq_eq_false_iff_ne]
        intro h
        exact ha (h ▸ hy)
      unfold namePos at hxy ⊢
      rw [List.findIdx_cons, List.findIdx_cons]
      simp only [hax, hay, cond_false]
      omega

/-- Every pair produced by the lookup stage carries the full name it was
looked up by. -/
theorem matchesWithScores_name {m : RepoMatcher} {n : List Char}
    {x : RepoItem × ℚ}
    (hx : x ∈ (m.items.find? (fun ri => ri.full_name == n)).map
      (fun ri => (ri, (100 : ℚ)))) : x.1.full_name = n := by
  simp only [Option.mem_def, Option.map_eq_some'] at hx
  rcases hx with ⟨ri, hfind, rfl⟩
  have hp := List.find?_some hfind
  have hp2 : (ri.full_name == n) = true := hp
  exact eq_of_beq hp2

/-- Stability of the whole pipeline for an arbitrary matcher state with
duplicate-free injected names. -/
theorem matches_sorted_stable (m : RepoMatcher) (now : ℤ)
    (hnd : m.allNames.Nodup) :
    (m.matches_sorted now).Pairwise
      (fun a b => combined_score a 100 now = combined_score b 100 now →
        namePos m.allNames a.full_name < namePos m.allNames b.full_name) := by
  have h1 : m.matchedNames.Pairwise
      (fun n n2 => namePos m.allNames n < namePos m.allNames n2) :=
    List.Pairwise.sublist (List.filter_sublist _) (namePos_pairwise hnd)
  have h2 : m.matchesWithScores.Pairwise
      (fun x y => namePos m.allNames x.1.full_name
        < namePos m.allNames y.1.full_name) := by
    unfold RepoMatcher.matchesWithScores
    refine List.pairwise_filterMap.mpr (h1.imp ?_)
    intro n n2 hlt x hx y hy
    rw [matchesWithScores_name hx, matchesWithScores_name hy]
    exact hlt
  have h3 := sortD_pairwise_stable
    (fun pr => combined_score pr.1 pr.2 now) h2
  unfold RepoMatcher.matches_sorted
  rw [List.pairwise_map]
  refine List.Pairwise.imp_of_mem ?_ h3
  intro pr qr hpr hqr hS hkey
  have hpr2 : pr.2 = 100 := mem_matchesWithScores_snd (mem_sortD.mp hpr)
  have hqr2 : qr.2 = 100 := mem_matchesWithScores_snd (mem_sortD.mp hqr)
  rcases hS with hlt | ⟨_, hR⟩
  · exfalso
    have hlt2 : combined_score qr.1 qr.2 now
        < combined_score pr.1 pr.2 now := hlt
    rw [hpr2, hqr2, hkey] at hlt2
    exact lt_irrefl _ hlt2
  · exact hR

/-- Claim C4: over a corpus with duplicate-free display keys (the
uniqueness the data model of the spec guarantees), any two matched items
with equal combined ordering keys appear in the sorted result in the order
of their display keys in the seed sequence, because the placeholder raw
score is shared and the sort is stable over the snapshot order. -/
theorem tie_break_input_order (ps : List Repo) (os : List Org)
    (p : List Char) (now : ℤ)
    (hnd : ((RepoMatcher.new ps os).update_pattern p).allNames.Nodup) :
    (((RepoMatcher.new ps os).update_pattern p).matches_sorted now).Pairwise
      (fun a b => combined_score a 100 now = combined_score b 100 now →
        namePos ((RepoMatcher.new ps os).update_pattern p).allNames a.full_name
          < namePos ((RepoMatcher.new ps os).update_pattern p).allNames
              b.full_name) :=
  matches_sorted_stable _ now hnd

/-- A second never-used repository, giving a tie in the ordering key with
sampleRepo. -/
def sampleRepo2 : Repo :=
  { sampleRepo with
    id := 2
    name := strL "y"
    full_name := strL "a/y" }

/-- Witness for claim C4 at a two-repo corpus whose items tie. -/
theorem tie_break_input_order_witness :
    (((RepoMatcher.new [sampleRepo, sampleRepo2] []).update_pattern
        []).matches_sorted 0).Pairwise
      (fun a b => combined_score a 100 0 = combined_score b 100 0 →
        namePos ((RepoMatcher.new [sampleRepo, sampleRepo2] []).update_pattern
            []).allNames a.full_name
          < namePos ((RepoMatcher.new [sampleRepo, sampleRepo2] []).update_pattern
              []).allNames b.full_name) :=
  tie_break_input_order [sampleRepo, sampleRepo2] [] [] 0 (by decide)
